import Mathlib

/-!
Verification of the `py-xtimeout` deadline-watchdog core
(`src/xtimeout/_xtimeout.cpp`) via a shallow embedding.

Modelling conventions:
* Times and durations are `Int` milliseconds-scale values (`std::chrono`
  durations are signed 64-bit counts; no claim depends on overflow).
* A `CLocalInjector` object is identified by a `Nat` id standing for its
  address; the heap is a function `Nat → Option Injector`.  Addresses are
  never reused while a reference is outstanding, so allocation on an
  already-allocated id is a no-op in the model.
* `m_CallMap` is keyed by the injector pointer and its value is the same
  pointer's `shared_ptr`, so it is modelled as a list of ids kept in
  iteration order; `unordered_map::operator[]` on an existing key does not
  duplicate the key.
* `m_NewVect` / `m_DelVect` are lists of ids (duplicates possible).
* The interleaving semantics treats each externally invokable operation
  (`start`, `stop`, `reset`, one watchdog iteration) as one atomic action;
  dispatch (`CAttacher::Attach`) is recorded as events.
-/

/-- State of one `CLocalInjector`: callback object (cleared by `Release`),
duration, recorded start time, validity flag, and whether its owning thread
state is the main thread (`CThreadState::IsMainThread`). -/
structure Injector where
  callback : Option Nat
  duration : Int
  startTime : Int
  valid : Bool
  isMain : Bool
deriving DecidableEq, Repr

/-- The heap of injector objects, indexed by address id. -/
def Heap : Type := Nat → Option Injector

/-- Allocate or overwrite the injector at id `k`. -/
def hupd (h : Heap) (k : Nat) (v : Injector) : Heap :=
  fun x => if x = k then some v else h x

/-- Mutate the injector at id `k` in place, if allocated. -/
def hmod (h : Heap) (k : Nat) (f : Injector → Injector) : Heap :=
  match h k with
  | some i => hupd h k (f i)
  | none => h

/-- Model of `CLocalInjector::Release`: clear the valid flag and the callback
(`m_IsValid = false; Py_CLEAR(m_Callback)`). -/
def releaseInj (i : Injector) : Injector :=
  { i with valid := false, callback := none }

/-- Model of `CLocalInjector::IsValid` read out of the heap; an unallocated id is
not valid. -/
def validB (h : Heap) (e : Nat) : Bool :=
  match h e with
  | some i => i.valid
  | none => false

/-- Global state of `CContextHelper` together with the injector heap:
`m_CallMap` (iteration-ordered key list), `m_NewVect`, `m_DelVect`,
`m_Running`. -/
structure SysState where
  heap : Heap
  callMap : List Nat
  newVect : List Nat
  delVect : List Nat
  running : Bool

/-- Observable dispatch events of the watchdog scan.
`disp e`: `CAttacher::Attach` was called on entry `e`;
`inv e`: the attach found the entry valid, so the callback delivery is
initiated (`FastCall`/`Call` proceed past their `IsValid` check);
`rem e`: `iter = m_CallMap.erase(iter)` removed `e` from the map. -/
inductive Event where
  | disp (id : Nat)
  | inv (id : Nat)
  | rem (id : Nat)
deriving DecidableEq, Repr

/-- Model of `m_CallMap[p] = sp`: insert a key, keeping keys unique. -/
def mapInsert (m : List Nat) (e : Nat) : List Nat :=
  if e ∈ m then m else m ++ [e]

/-- Model of `CContextHelper::AddTimeoutCallback`: while the loop runs, stage the
entry in `m_NewVect`; otherwise insert directly into `m_CallMap`. -/
def addTimeoutCallback (s : SysState) (e : Nat) : SysState :=
  if s.running then { s with newVect := s.newVect ++ [e] }
  else { s with callMap := mapInsert s.callMap e }

/-- Model of `InjectorStart` followed by `CContextHelper::Start`: record the start
time, register the entry, and mark the loop running.  A handle always
carries an injector, so the unallocated case is a no-op. -/
def startOp (s : SysState) (e : Nat) (now : Int) : SysState :=
  match s.heap e with
  | none => s
  | some _ =>
    let s1 : SysState := { s with heap := hmod s.heap e (fun i => { i with startTime := now }) }
    let s2 := addTimeoutCallback s1 e
    { s2 with running := true }

/-- Model of `CContextHelper::Stop`: release the injector; if it is tracked, either
stage it for deletion (loop running) or erase it synchronously. -/
def stopOp (s : SysState) (e : Nat) : SysState :=
  let h := hmod s.heap e releaseInj
  if e ∈ s.callMap then
    if s.running then { s with heap := h, delVect := s.delVect ++ [e] }
    else { s with heap := h, callMap := s.callMap.filter (fun x => x ≠ e) }
  else { s with heap := h }

/-- Model of `InitPyInjector`: allocate a fresh injector with the given callback and
duration.  Addresses are never reused while referenced, so allocating at a
live id is a no-op in the model. -/
def createOp (s : SysState) (e cb : Nat) (dur : Int) (isMain : Bool) : SysState :=
  match s.heap e with
  | some _ => s
  | none =>
    let inj : Injector :=
      { callback := some cb, duration := dur, startTime := 0,
        valid := true, isMain := isMain }
    { s with heap := hupd s.heap e inj }

/-- Model of `InjectorReset`: read the old injector's callback (with a
null-tolerant `Py_XINCREF`) and duration, release it (without touching the
registry), replace it by a fresh injector with the same callback and
duration, record the start time and register it.  If the old entry was
already released, its callback is null (`Release` does `Py_CLEAR`) and
`SetCallback` executes `Py_INCREF(nullptr)` — a crash before anything is
recorded or registered — modelled as `none`.  `make_shared` yields a fresh
address, so an aliased `newId` is impossible and modelled as leaving only
the release behind. -/
def resetOp (s : SysState) (oldId newId : Nat) (now : Int) : Option SysState :=
  match s.heap oldId with
  | none => some s
  | some oldInj =>
    match oldInj.callback with
    | none => none
    | some cb =>
      let h1 := hmod s.heap oldId releaseInj
      match h1 newId with
      | some _ => some { s with heap := h1 }
      | none =>
        let inj : Injector :=
          { callback := some cb, duration := oldInj.duration,
            startTime := now, valid := true, isMain := oldInj.isMain }
        let s1 : SysState := { s with heap := hupd h1 newId inj }
        let s2 := addTimeoutCallback s1 newId
        some { s2 with running := true }

/-- Trace-level effect of an `Act.reset` action.  A crashed reset
(`resetOp` is `none`) terminates the real process, so it produces no
events; the model keeps the pre-crash state and emits nothing, which only
adds continuations relative to the real system and is therefore
conservative for the delivery-safety claims. -/
def resetStep (s : SysState) (oldId newId : Nat) (now : Int) : SysState :=
  (resetOp s oldId newId now).getD s

/-- Model of `CContextHelper::Merge`: under the lock, erase every staged deletion
from the map, then insert every staged addition that is still valid, then
clear both staging vectors. -/
def mergeOp (s : SysState) : SysState :=
  let m1 := s.callMap.filter (fun e => !(s.delVect.contains e))
  let m2 := (s.newVect.filter (fun e => validB s.heap e)).foldl mapInsert m1
  { s with callMap := m2, newVect := [], delVect := [] }

/-- Initial `minSpan`: `std::chrono::nanoseconds(LLONG_MAX)`. -/
def maxSpanInit : Int := 9223372036854775807

/-- Value of `INTERVAL_RESOLUTION = std::chrono::milliseconds(5)`. -/
def intervalResolution : Int := 5

/-- Result of one pass of the scan loop inside `CheckThread`: the map that
remains, the dispatch events in program order, and the running minimum of
remaining spans. -/
structure ScanResult where
  map : List Nat
  events : List Event
  minSpan : Int
deriving Repr

/-- The `for (iter = m_CallMap.begin(); ...)` scan: for each entry compute
`span = now - startTime`; if `span > duration`, call `CAttacher::Attach`
(which checks `IsValid` before initiating delivery) and erase the entry;
otherwise fold the remaining span into `minSpan`. -/
def scanGo (h : Heap) (now : Int) : List Nat → ScanResult
  | [] => ⟨[], [], maxSpanInit⟩
  | e :: rest =>
    match h e with
    | some inj =>
      let span := now - inj.startTime
      if span > inj.duration then
        let tail := scanGo h now rest
        ⟨tail.map,
         Event.disp e :: ((if inj.valid then [Event.inv e] else []) ++ (Event.rem e :: tail.events)),
         tail.minSpan⟩
      else
        let tail := scanGo h now rest
        ⟨e :: tail.map, tail.events, min tail.minSpan (inj.duration - span)⟩
    | none =>
      let tail := scanGo h now rest
      ⟨e :: tail.map, tail.events, tail.minSpan⟩

/-- One iteration of the `do { ... } while (m_Running)` body of
`CheckThread`: scan the map, `Merge()`, and clear `m_Running` when the map
came out empty. -/
def cycleOp (s : SysState) (now : Int) : SysState × List Event :=
  let r := scanGo s.heap now s.callMap
  let s1 := mergeOp { s with callMap := r.map }
  ({ s1 with running := if s1.callMap.isEmpty then false else s1.running }, r.events)

/-- The sleep decision at the end of a `CheckThread` iteration: the thread
sleeps a fixed 1 ms when `minSpan - (endTime - startTime)` exceeds
`INTERVAL_RESOLUTION`, and does not sleep otherwise (`elapsed` is the
scan's wall-clock cost `endTime - startTime`). -/
def cycleSleep (s : SysState) (now elapsed : Int) : Int :=
  let r := scanGo s.heap now s.callMap
  if r.minSpan - elapsed > intervalResolution then 1 else 0

/-- The externally triggered atomic actions of the interleaving model. -/
inductive Act where
  | create (id cb : Nat) (dur : Int) (isMain : Bool)
  | start (id : Nat) (now : Int)
  | stop (id : Nat)
  | reset (oldId newId : Nat) (now : Int)
  | cycle (now : Int)

/-- One action's effect on the state together with its dispatch events. -/
def step (s : SysState) (a : Act) : SysState × List Event :=
  match a with
  | .create id cb dur m => (createOp s id cb dur m, [])
  | .start id now => (startOp s id now, [])
  | .stop id => (stopOp s id, [])
  | .reset o n now => (resetStep s o n now, [])
  | .cycle now => cycleOp s now

/-- Run a list of actions from a state, accumulating all events. -/
def runFrom (s : SysState) : List Act → SysState × List Event
  | [] => (s, [])
  | a :: tr =>
    let p := step s a
    let q := runFrom p.1 tr
    (q.1, p.2 ++ q.2)

/-- State before the module is used: empty heap, empty registry, loop not
running. -/
def initState : SysState :=
  { heap := fun _ => none, callMap := [], newVect := [], delVect := [],
    running := false }

/-- Number of times the trace starts (or reset-starts) entry `e`:
each `start` of `e` and each `reset` whose fresh entry is `e`. -/
def startCount (e : Nat) : List Act → Nat
  | [] => 0
  | a :: tr =>
    (match a with
     | .start id _ => if id = e then 1 else 0
     | .reset _ n _ => if n = e then 1 else 0
     | _ => 0) + startCount e tr

/-- The `(c_tracefunc, c_traceobj)` pair of a thread state, installed and
captured as a unit.  `hookH injId saved` is `OnTrace` installed with a
capsule wrapping the injector pointer and the previously captured pair, the
chain of §`CheckpointHook`. -/
inductive TraceHandler where
  | noneH : TraceHandler
  | extH (fnId objId : Nat) : TraceHandler
  | hookH (injId : Nat) (saved : TraceHandler) : TraceHandler
deriving DecidableEq, Repr

/-- Argument actually delivered to the Python callback.
`startTimeObj t` is the `PyFloat` built from the recorded start time `t`,
passed with the `"O"` format (the fast path, `OnFastTrace` line 394).
`garbageDouble` is what the slow path delivers: `OnTrace` calls
`PyObject_CallFunction(callback, "(d)", pyStartTime)` (line 421), whose
`"d"` format consumes a C `double` vararg while a `PyObject*` is passed,
so the callback receives an unspecified double unrelated to the recorded
start time. -/
inductive CbArg where
  | startTimeObj (t : Int)
  | garbageDouble
deriving DecidableEq, Repr

/-- Observable effects on the owning context during hook dispatch. -/
inductive CtxEvent where
  | setTrace (h : TraceHandler)
  | invoke (cb : Option Nat) (arg : CbArg)
deriving DecidableEq, Repr

/-- Model of `CLocalInjector::Call` (slow path): if the injector is still valid,
capture the context's current trace pair into a wrapper and install
`OnTrace` with the wrapping capsule; an invalid injector returns without
installing anything. -/
def callOp (h : Heap) (e : Nat) (cur : TraceHandler) : TraceHandler :=
  match h e with
  | none => cur
  | some inj => if inj.valid then TraceHandler.hookH e cur else cur

/-- Outcome of `OnTrace`: the handler left installed, the events in program
order, and the C `int` return value (`-1` aborts into the context's error
path). -/
structure TraceOutcome where
  handler : TraceHandler
  events : List CtxEvent
  ret : Int
deriving DecidableEq, Repr

/-- Model of `CLocalInjector::OnTrace`: runs on the target context at its next
checkpoint.  It first restores the captured trace pair
(`PyEval_SetTrace(wrapper->tracefunc, wrapper->pyTraceobj)`), then, only if
the injector is still valid, invokes the callback — but with
`PyObject_CallFunction(callback, "(d)", pyStartTime)`, whose `"d"` format
reads a C `double` where a `PyObject*` was passed, so the argument is a
garbage double (`CbArg.garbageDouble`), not the recorded start time; a
callback failure returns `-1`.  `cbOk` tells whether the Python callback
succeeded. -/
def onTraceOp (h : Heap) (cur : TraceHandler) (cbOk : Bool) : TraceOutcome :=
  match cur with
  | .hookH e saved =>
    match h e with
    | some inj =>
      if inj.valid then
        ⟨saved, [CtxEvent.setTrace saved, CtxEvent.invoke inj.callback CbArg.garbageDouble],
         if cbOk then 0 else -1⟩
      else ⟨saved, [CtxEvent.setTrace saved], 0⟩
    | none => ⟨saved, [CtxEvent.setTrace saved], 0⟩
  | other => ⟨other, [], 0⟩

/-- Model of `CLocalInjector::FastCall` (fast path): if the injector is still valid,
`Py_AddPendingCall(OnFastTrace, wrapper)`; `addOk` is whether that call
succeeded (`res != -1`).  On failure the request is dropped — the `TODO`
comment in the source marks that no retry is scheduled — so the pending
queue is left unchanged. -/
def fastCall (h : Heap) (e : Nat) (addOk : Bool) (q : List Nat) : List Nat :=
  match h e with
  | none => q
  | some inj =>
    if inj.valid then (if addOk then q ++ [e] else q) else q

/-- Model of `CLocalInjector::OnFastTrace`: run later by the main interpreter loop;
invokes the callback only if the injector is still valid, `-1` on callback
failure. -/
def onFastTrace (h : Heap) (e : Nat) (cbOk : Bool) : List CtxEvent × Int :=
  match h e with
  | none => ([], 0)
  | some inj =>
    if inj.valid then
      ([CtxEvent.invoke inj.callback (CbArg.startTimeObj inj.startTime)],
       if cbOk then 0 else -1)
    else ([], 0)

/-- Measure `potential e s` bounds how many more times entry `e` can still be
dispatched without a new registration: its multiplicity in the map plus in
the staged additions. -/
def potential (e : Nat) (s : SysState) : Nat :=
  s.callMap.count e + s.newVect.count e

/-- Statement of claim C1's ordering clause: within a scan's event list,
every dispatch of `e` is preceded by a removal of `e`. -/
def removalPrecedesDispatch (evs : List Event) (e : Nat) : Prop :=
  ∀ i j : Fin evs.length, evs.get i = Event.disp e → evs.get j = Event.rem e →
    (j : Nat) < (i : Nat)

instance (evs : List Event) (e : Nat) : Decidable (removalPrecedesDispatch evs e) := by
  unfold removalPrecedesDispatch
  exact inferInstance

/-- Modelled from the spec: the sleep duration claimed in §4.2, "min
(remaining time across all entries) minus elapsed scan time, floored at a
fixed resolution quantum ... and at a zero floor". -/
def specSleepClaim (minSpan elapsed : Int) : Int :=
  max (max (minSpan - elapsed) intervalResolution) 0

/-- Modelled from the spec: `Stop()` followed by a fresh `Start()` with the
same callback and duration (§8) — stop the old entry, allocate a fresh one
carrying the old callback and duration, and start it. -/
def stopFreshStart (s : SysState) (oldId newId : Nat) (now : Int) : SysState :=
  match s.heap oldId with
  | none => s
  | some oldInj =>
    let s1 := stopOp s oldId
    match s1.heap newId with
    | some _ => s1
    | none =>
      let inj : Injector :=
        { callback := oldInj.callback, duration := oldInj.duration,
          startTime := 0, valid := true, isMain := oldInj.isMain }
      let s2 : SysState := { s1 with heap := hupd s1.heap newId inj }
      startOp s2 newId now

/-! ### Heap access lemmas -/

lemma hupd_self (h : Heap) (k : Nat) (v : Injector) : hupd h k v k = some v := by
  simp [hupd]

lemma hupd_other (h : Heap) (k : Nat) (v : Injector) (e : Nat) (hne : e ≠ k) :
    hupd h k v e = h e := by
  simp [hupd, hne]

lemma hmod_other (h : Heap) (k : Nat) (f : Injector → Injector) (e : Nat) (hne : e ≠ k) :
    hmod h k f e = h e := by
  unfold hmod
  cases hk : h k with
  | none => rfl
  | some i => simp [hupd, hne]

lemma hmod_self (h : Heap) (k : Nat) (f : Injector → Injector) (i : Injector)
    (hk : h k = some i) : hmod h k f k = some (f i) := by
  simp [hmod, hk, hupd]

lemma hmod_at (h : Heap) (k : Nat) (f : Injector → Injector) (e : Nat) (i : Injector)
    (he : h e = some i) :
    hmod h k f e = some (if k = e then f i else i) := by
  by_cases hke : k = e
  · subst hke
    rw [hmod_self h k f i he]
    simp
  · rw [hmod_other h k f e (fun hh => hke hh.symm)]
    simp [he, hke]

/-! ### Projection lemmas for the registry operations -/

lemma addTimeoutCallback_heap (s : SysState) (e : Nat) :
    (addTimeoutCallback s e).heap = s.heap := by
  unfold addTimeoutCallback
  split <;> rfl

lemma addTimeoutCallback_delVect (s : SysState) (e : Nat) :
    (addTimeoutCallback s e).delVect = s.delVect := by
  unfold addTimeoutCallback
  split <;> rfl

lemma stopOp_heap (s : SysState) (e : Nat) :
    (stopOp s e).heap = hmod s.heap e releaseInj := by
  unfold stopOp
  split
  · split <;> rfl
  · rfl

lemma stopOp_running (s : SysState) (e : Nat) :
    (stopOp s e).running = s.running := by
  unfold stopOp
  split
  · split <;> rfl
  · rfl

lemma stopOp_newVect (s : SysState) (e : Nat) :
    (stopOp s e).newVect = s.newVect := by
  unfold stopOp
  split
  · split <;> rfl
  · rfl

lemma mergeOp_heap (s : SysState) : (mergeOp s).heap = s.heap := rfl

lemma cycleOp_heap (s : SysState) (now : Int) :
    (cycleOp s now).1.heap = s.heap := rfl

lemma startOp_heap_at (s : SysState) (id : Nat) (now : Int) (e : Nat) (i : Injector)
    (he : s.heap e = some i) :
    (startOp s id now).heap e =
      some (if id = e then { i with startTime := now } else i) := by
  unfold startOp
  cases hid : s.heap id with
  | none =>
    have hne : ¬ id = e := by
      intro hh
      rw [hh, he] at hid
      cases hid
    simp [he, hne]
  | some j =>
    simp only [addTimeoutCallback_heap]
    exact hmod_at s.heap id _ e i he

lemma createOp_heap_at (s : SysState) (id cb : Nat) (dur : Int) (m : Bool) (e : Nat)
    (i : Injector) (he : s.heap e = some i) :
    (createOp s id cb dur m).heap e = some i := by
  unfold createOp
  cases hid : s.heap id with
  | some _ => exact he
  | none =>
    have hne : e ≠ id := by
      intro hh
      rw [hh, hid] at he
      cases he
    simp only []
    rw [hupd_other _ _ _ _ hne]
    exact he

lemma resetStep_heap_invalid (s : SysState) (o n : Nat) (now : Int) (e : Nat) (i : Injector)
    (he : s.heap e = some i) (hv : i.valid = false) :
    ∃ i2, (resetStep s o n now).heap e = some i2 ∧ i2.valid = false := by
  have h1e : (hmod s.heap o releaseInj) e =
      some (if o = e then releaseInj i else i) := hmod_at s.heap o releaseInj e i he
  have hv2 : (if o = e then releaseInj i else i).valid = false := by
    by_cases hoe : o = e <;> simp [hoe, releaseInj, hv]
  unfold resetStep resetOp
  split
  · exact ⟨i, he, hv⟩
  · split
    · exact ⟨i, he, hv⟩
    · dsimp only
      split
      · exact ⟨_, h1e, hv2⟩
      · next hn =>
        have hne : e ≠ n := by
          intro hh
          rw [hh, hn] at h1e
          cases h1e
        refine ⟨_, ?_, hv2⟩
        simp only [Option.getD, addTimeoutCallback_heap]
        rw [hupd_other _ _ _ _ hne]
        exact h1e

/-! ### Scan lemmas -/

lemma cycleOp_events (s : SysState) (now : Int) :
    (cycleOp s now).2 = (scanGo s.heap now s.callMap).events := rfl

lemma scanGo_inv_mem (h : Heap) (now : Int) (e : Nat) :
    ∀ m : List Nat, Event.inv e ∈ (scanGo h now m).events →
      ∃ inj, h e = some inj ∧ inj.valid = true ∧ now - inj.startTime > inj.duration := by
  intro m
  induction m with
  | nil =>
    intro hmem
    simp [scanGo] at hmem
  | cons x rest ih =>
    intro hmem
    simp only [scanGo] at hmem
    cases hx : h x with
    | none =>
      simp only [hx] at hmem
      exact ih hmem
    | some inj =>
      simp only [hx] at hmem
      by_cases hsp : now - inj.startTime > inj.duration
      · simp only [if_pos hsp, List.mem_cons, List.mem_append] at hmem
        rcases hmem with h1 | h1 | h1 | h1
        · cases h1
        · by_cases hvx : inj.valid
          · simp [hvx] at h1
            exact ⟨inj, by rw [h1]; exact hx, hvx, hsp⟩
          · simp [hvx] at h1
        · cases h1
        · exact ih h1
      · simp only [if_neg hsp] at hmem
        exact ih hmem

lemma scanGo_disp_mem (h : Heap) (now : Int) (e : Nat) :
    ∀ m : List Nat, Event.disp e ∈ (scanGo h now m).events →
      ∃ inj, h e = some inj ∧ now - inj.startTime > inj.duration ∧ e ∈ m := by
  intro m
  induction m with
  | nil =>
    intro hmem
    simp [scanGo] at hmem
  | cons x rest ih =>
    intro hmem
    simp only [scanGo] at hmem
    cases hx : h x with
    | none =>
      simp only [hx] at hmem
      obtain ⟨inj, h1, h2, h3⟩ := ih hmem
      exact ⟨inj, h1, h2, List.mem_cons_of_mem x h3⟩
    | some inj =>
      simp only [hx] at hmem
      by_cases hsp : now - inj.startTime > inj.duration
      · simp only [if_pos hsp, List.mem_cons, List.mem_append] at hmem
        rcases hmem with h1 | h1 | h1 | h1
        · injection h1 with hex
          subst hex
          exact ⟨inj, hx, hsp, List.mem_cons_self _ rest⟩
        · by_cases hvx : inj.valid <;> simp [hvx] at h1
        · cases h1
        · obtain ⟨inj2, g1, g2, g3⟩ := ih h1
          exact ⟨inj2, g1, g2, List.mem_cons_of_mem x g3⟩
      · simp only [if_neg hsp] at hmem
        obtain ⟨inj2, g1, g2, g3⟩ := ih hmem
        exact ⟨inj2, g1, g2, List.mem_cons_of_mem x g3⟩

lemma scanGo_map_subset (h : Heap) (now : Int) :
    ∀ m : List Nat, (scanGo h now m).map ⊆ m := by
  intro m
  induction m with
  | nil => simp [scanGo]
  | cons x rest ih =>
    simp only [scanGo]
    cases hx : h x with
    | none =>
      intro a ha
      simp only [List.mem_cons] at ha ⊢
      rcases ha with ha | ha
      · exact Or.inl ha
      · exact Or.inr (ih ha)
    | some inj =>
      by_cases hsp : now - inj.startTime > inj.duration
      · simp only [if_pos hsp]
        intro a ha
        exact List.mem_cons_of_mem x (ih ha)
      · simp only [if_neg hsp]
        intro a ha
        simp only [List.mem_cons] at ha ⊢
        rcases ha with ha | ha
        · exact Or.inl ha
        · exact Or.inr (ih ha)

/-! ### Merge lemmas -/

lemma mem_mapInsert (m : List Nat) (x e : Nat) :
    e ∈ mapInsert m x ↔ e ∈ m ∨ e = x := by
  unfold mapInsert
  split
  · next hx =>
    constructor
    · exact Or.inl
    · rintro (h | rfl)
      · exact h
      · exact hx
  · simp [List.mem_append]

lemma mem_foldl_mapInsert (e : Nat) :
    ∀ (l m : List Nat), e ∈ l.foldl mapInsert m ↔ e ∈ m ∨ e ∈ l := by
  intro l
  induction l with
  | nil => simp
  | cons x xs ih =>
    intro m
    rw [List.foldl_cons, ih, mem_mapInsert, List.mem_cons]
    tauto

lemma mem_mergeOp (s : SysState) (e : Nat) :
    e ∈ (mergeOp s).callMap ↔
      (e ∈ s.callMap ∧ e ∉ s.delVect) ∨ (e ∈ s.newVect ∧ validB s.heap e = true) := by
  unfold mergeOp
  rw [mem_foldl_mapInsert e]
  simp only [List.mem_filter, Bool.not_eq_true']
  constructor
  · rintro (⟨h1, h2⟩ | ⟨h1, h2⟩)
    · exact Or.inl ⟨h1, by simpa using h2⟩
    · exact Or.inr ⟨h1, h2⟩
  · rintro (⟨h1, h2⟩ | ⟨h1, h2⟩)
    · exact Or.inl ⟨h1, by simpa using h2⟩
    · exact Or.inr ⟨h1, h2⟩

lemma count_mapInsert_le (m : List Nat) (x e : Nat) :
    (mapInsert m x).count e ≤ m.count e + (if x = e then 1 else 0) := by
  unfold mapInsert
  split
  · exact Nat.le_add_right _ _
  · by_cases hxe : x = e <;>
      simp [hxe, List.count_append, List.count_cons]

lemma count_foldl_mapInsert_le (e : Nat) :
    ∀ (l m : List Nat), (l.foldl mapInsert m).count e ≤ m.count e + l.count e := by
  intro l
  induction l with
  | nil => simp
  | cons x xs ih =>
    intro m
    rw [List.foldl_cons]
    calc (xs.foldl mapInsert (mapInsert m x)).count e
        ≤ (mapInsert m x).count e + xs.count e := ih _
      _ ≤ (m.count e + (if x = e then 1 else 0)) + xs.count e :=
          Nat.add_le_add_right (count_mapInsert_le m x e) _
      _ = m.count e + (x :: xs).count e := by
          by_cases hxe : x = e <;> simp [hxe, List.count_cons] <;> omega

lemma mergeOp_potential_le (s : SysState) (e : Nat) :
    potential e (mergeOp s) ≤ potential e s := by
  unfold mergeOp potential
  simp only [List.count_nil, Nat.add_zero]
  calc ((s.newVect.filter (fun x => validB s.heap x)).foldl mapInsert
          (s.callMap.filter (fun x => !(s.delVect.contains x)))).count e
      ≤ (s.callMap.filter (fun x => !(s.delVect.contains x))).count e +
          (s.newVect.filter (fun x => validB s.heap x)).count e :=
        count_foldl_mapInsert_le e _ _
    _ ≤ s.callMap.count e + s.newVect.count e := by
        have h1 := (List.filter_sublist (l := s.callMap)
          (p := fun x => !(s.delVect.contains x))).count_le e
        have h2 := (List.filter_sublist (l := s.newVect)
          (p := fun x => validB s.heap x)).count_le e
        omega

lemma scanGo_count_le (h : Heap) (now : Int) (e : Nat) :
    ∀ m : List Nat,
      (scanGo h now m).events.count (Event.inv e) + (scanGo h now m).map.count e ≤
        m.count e := by
  intro m
  induction m with
  | nil => simp [scanGo]
  | cons x rest ih =>
    simp only [scanGo]
    cases hx : h x with
    | none =>
      simp only [List.count_cons]
      omega
    | some inj =>
      by_cases hsp : now - inj.startTime > inj.duration
      · simp only [if_pos hsp, List.count_cons, List.count_append]
        by_cases hvx : inj.valid <;> by_cases hxe : x = e <;>
          simp [hvx, hxe, List.count_cons] <;> omega
      · simp only [if_neg hsp, List.count_cons]
        omega

/-! ### Invalidation is permanent -/

lemma stopOp_heap_invalid (s : SysState) (x e : Nat) (i : Injector)
    (he : s.heap e = some i) (hv : i.valid = false) :
    ∃ i2, (stopOp s x).heap e = some i2 ∧ i2.valid = false := by
  rw [stopOp_heap, hmod_at s.heap x releaseInj e i he]
  refine ⟨_, rfl, ?_⟩
  by_cases hxe : x = e <;> simp [hxe, releaseInj, hv]

lemma step_heap_invalid (s : SysState) (a : Act) (e : Nat) (i : Injector)
    (he : s.heap e = some i) (hv : i.valid = false) :
    ∃ i2, (step s a).1.heap e = some i2 ∧ i2.valid = false := by
  cases a with
  | create id cb dur m => exact ⟨i, createOp_heap_at s id cb dur m e i he, hv⟩
  | start id now =>
    refine ⟨_, startOp_heap_at s id now e i he, ?_⟩
    by_cases hid : id = e <;> simp [hid, hv]
  | stop id => exact stopOp_heap_invalid s id e i he hv
  | reset o n now => exact resetStep_heap_invalid s o n now e i he hv
  | cycle now => exact ⟨i, by rw [show (step s (Act.cycle now)).1.heap = s.heap from rfl]; exact he, hv⟩

lemma invalid_no_inv (e : Nat) :
    ∀ (tr : List Act) (s : SysState) (i : Injector),
      s.heap e = some i → i.valid = false →
      (runFrom s tr).2.count (Event.inv e) = 0 := by
  intro tr
  induction tr with
  | nil =>
    intro s i _ _
    simp [runFrom]
  | cons a tr ih =>
    intro s i he hv
    simp only [runFrom, List.count_append]
    obtain ⟨i2, he2, hv2⟩ := step_heap_invalid s a e i he hv
    have htail := ih (step s a).1 i2 he2 hv2
    have hhead : (step s a).2.count (Event.inv e) = 0 := by
      cases a with
      | cycle now =>
        rw [List.count_eq_zero]
        intro hmem
        obtain ⟨inj, g1, g2, _⟩ := scanGo_inv_mem s.heap now e s.callMap hmem
        rw [he] at g1
        injection g1 with g1
        rw [g1] at hv
        rw [hv] at g2
        cases g2
      | create id cb dur m => rfl
      | start id now => rfl
      | stop id => rfl
      | reset o n now => rfl
    omega

/-! ### The at-most-once potential invariant -/

lemma startCount_cons (e : Nat) (a : Act) (tr : List Act) :
    startCount e (a :: tr) = startCount e [a] + startCount e tr := by
  simp [startCount]

lemma step_potential (s : SysState) (a : Act) (e : Nat) :
    ((step s a).2.count (Event.inv e)) + potential e (step s a).1 ≤
      potential e s + startCount e [a] := by
  cases a with
  | create id cb dur m =>
    simp only [step, startCount]
    unfold createOp
    split <;> simp [potential]
  | start id now =>
    simp only [step, startCount, List.count_nil]
    unfold startOp
    split
    · simp [potential]
    · unfold addTimeoutCallback
      dsimp only
      split
      · dsimp only [potential]
        by_cases hxe : id = e <;>
          simp [hxe, List.count_append, List.count_cons] <;> omega
      · dsimp only [potential]
        have := count_mapInsert_le s.callMap id e
        omega
  | stop id =>
    simp only [step, startCount, List.count_nil]
    unfold stopOp
    split
    · split
      · dsimp only [potential]
        omega
      · dsimp only [potential]
        have := (List.filter_sublist (l := s.callMap)
          (p := fun x => x ≠ id)).count_le e
        omega
    · dsimp only [potential]
      omega
  | reset o n now =>
    simp only [step, startCount, List.count_nil]
    unfold resetStep resetOp
    split
    · simp [potential]
    · split
      · simp [potential]
      · dsimp only
        split
        · simp [potential]
        · unfold addTimeoutCallback
          dsimp only
          split
          · simp only [Option.getD]
            dsimp only [potential]
            by_cases hne : n = e <;>
              simp [hne, List.count_append, List.count_cons] <;> omega
          · simp only [Option.getD]
            dsimp only [potential]
            have := count_mapInsert_le s.callMap n e
            omega
  | cycle now =>
    have hscan := scanGo_count_le s.heap now e s.callMap
    have hmerge := mergeOp_potential_le
      { s with callMap := (scanGo s.heap now s.callMap).map } e
    simp only [step, cycleOp, startCount, potential] at hmerge ⊢
    omega

lemma runFrom_count_le (e : Nat) :
    ∀ (tr : List Act) (s : SysState),
      (runFrom s tr).2.count (Event.inv e) + potential e (runFrom s tr).1 ≤
        potential e s + startCount e tr := by
  intro tr
  induction tr with
  | nil =>
    intro s
    simp [runFrom, startCount]
  | cons a tr ih =>
    intro s
    have h1 := step_potential s a e
    have h2 := ih (step s a).1
    rw [startCount_cons]
    simp only [runFrom, List.count_append]
    omega

lemma scanGo_expired_not_map (h : Heap) (now : Int) (e : Nat) (inj : Injector)
    (he : h e = some inj) (hexp : now - inj.startTime > inj.duration) :
    ∀ m : List Nat, e ∉ (scanGo h now m).map := by
  intro m
  induction m with
  | nil => simp [scanGo]
  | cons x rest ih =>
    simp only [scanGo]
    cases hx : h x with
    | none =>
      intro hmem
      simp only [List.mem_cons] at hmem
      rcases hmem with rfl | hmem
      · rw [he] at hx
        cases hx
      · exact ih hmem
    | some i =>
      by_cases hsp : now - i.startTime > i.duration
      · simp only [if_pos hsp]
        exact ih
      · simp only [if_neg hsp]
        intro hmem
        simp only [List.mem_cons] at hmem
        rcases hmem with rfl | hmem
        · rw [he] at hx
          injection hx with hx
          rw [← hx] at hsp
          exact hsp hexp
        · exact ih hmem

/-! ### Registration and stop lemmas -/

lemma startOp_registers (s : SysState) (e : Nat) (i : Injector)
    (he : s.heap e = some i) (now : Int) :
    e ∈ (startOp s e now).callMap ∨ e ∈ (startOp s e now).newVect := by
  unfold startOp
  split
  · next hnone =>
    rw [he] at hnone
    cases hnone
  · unfold addTimeoutCallback
    dsimp only
    split
    · right
      simp
    · left
      rw [mem_mapInsert]
      exact Or.inr rfl

lemma startOp_heap (s : SysState) (e : Nat) (now : Int) (i : Injector)
    (he : s.heap e = some i) :
    (startOp s e now).heap = hmod s.heap e (fun j => { j with startTime := now }) := by
  unfold startOp
  split
  · next hnone =>
    rw [he] at hnone
    cases hnone
  · rw [addTimeoutCallback_heap]

lemma stopOp_not_trackable (s : SysState) (e : Nat) :
    ¬ (e ∈ (stopOp s e).callMap ∧ e ∉ (stopOp s e).delVect) := by
  unfold stopOp
  split
  · next hin =>
    split
    · rintro ⟨_, hdel⟩
      exact hdel (by simp)
    · rintro ⟨hmem, _⟩
      simp [List.mem_filter] at hmem
  · next hnin =>
    rintro ⟨hmem, _⟩
    exact hnin hmem

lemma stopOp_heap_self (s : SysState) (e : Nat) (i : Injector) (he : s.heap e = some i) :
    (stopOp s e).heap e = some (releaseInj i) := by
  rw [stopOp_heap]
  exact hmod_self s.heap e releaseInj i he

lemma hmod_none (h : Heap) (k : Nat) (f : Injector → Injector) (hk : h k = none) :
    hmod h k f = h := by
  unfold hmod
  rw [hk]

lemma stopOp_validB (s : SysState) (e : Nat) :
    validB (stopOp s e).heap e = false := by
  rw [stopOp_heap]
  cases he : s.heap e with
  | none =>
    rw [hmod_none s.heap e releaseInj he]
    unfold validB
    rw [he]
  | some i =>
    unfold validB
    rw [hmod_self s.heap e releaseInj i he]
    rfl

/-! ### Claim theorems -/

/-- C2: for every entry, after its valid flag is cleared by `Stop` and one
`Merge` cycle (equivalently one full watchdog cycle) has completed, the
entry is absent from the active map, and if `Stop` completes before the
watchdog's next `Merge` the entry's callback is never invoked in any
subsequent execution. -/
theorem stop_then_merge_absent (s : SysState) (e : Nat) (now : Int) (i : Injector)
    (he : s.heap e = some i) :
    e ∉ (mergeOp (stopOp s e)).callMap ∧
    e ∉ (cycleOp (stopOp s e) now).1.callMap ∧
    (∀ tr, (runFrom (stopOp s e) tr).2.count (Event.inv e) = 0) := by
  have hvB := stopOp_validB s e
  refine ⟨?_, ?_, ?_⟩
  · intro hmem
    rw [mem_mergeOp] at hmem
    rcases hmem with h1 | ⟨_, h2⟩
    · exact stopOp_not_trackable s e h1
    · rw [hvB] at h2
      simp at h2
  · intro hmem
    have hmem2 : e ∈ (mergeOp { stopOp s e with
        callMap := (scanGo (stopOp s e).heap now (stopOp s e).callMap).map }).callMap := hmem
    rw [mem_mergeOp] at hmem2
    rcases hmem2 with ⟨h1, h2⟩ | ⟨_, h2⟩
    · exact stopOp_not_trackable s e
        ⟨scanGo_map_subset (stopOp s e).heap now (stopOp s e).callMap h1, h2⟩
    · have h2b : validB (stopOp s e).heap e = true := h2
      rw [hvB] at h2b
      simp at h2b
  · intro tr
    exact invalid_no_inv e tr (stopOp s e) (releaseInj i)
      (stopOp_heap_self s e i he) (by simp [releaseInj])

def c2State : SysState :=
  { heap := fun x => if x = 0 then
      some { callback := some 3, duration := 50, startTime := 0, valid := true, isMain := true }
      else none,
    callMap := [0], newVect := [], delVect := [], running := true }

def c2Inj : Injector :=
  { callback := some 3, duration := 50, startTime := 0, valid := true, isMain := true }

theorem stop_then_merge_absent_witness :
    c2State.heap 0 = some c2Inj ∧ 0 ∉ (mergeOp (stopOp c2State 0)).callMap := by
  refine ⟨rfl, ?_⟩
  exact (stop_then_merge_absent c2State 0 0 _ rfl).1

/-- C7: `Merge` applies all pending removals to the active map first, then
applies pending adds while skipping any add whose entry has been
invalidated, then clears both staging lists: afterwards both staging lists
are empty and membership in the active map is exactly "was in the map and
not staged for removal, or was staged for addition and still valid" (an
entry staged for both removal and re-addition survives, because removals
are applied before adds). -/
theorem merge_algorithm (s : SysState) (e : Nat) :
    (mergeOp s).newVect = [] ∧ (mergeOp s).delVect = [] ∧
    (e ∈ (mergeOp s).callMap ↔
      (e ∈ s.callMap ∧ e ∉ s.delVect) ∨ (e ∈ s.newVect ∧ validB s.heap e = true)) :=
  ⟨rfl, rfl, mem_mergeOp s e⟩

/-- C5: an entry is dispatched only when its elapsed time strictly exceeds
its duration (`span > duration`); in particular no dispatch and no callback
delivery happen while `now - startTime ≤ duration`, so the callback never
fires before the wall-clock offset `d`. -/
theorem expiry_strict_threshold (h : Heap) (now : Int) (m : List Nat) (e : Nat) :
    (Event.disp e ∈ (scanGo h now m).events →
      ∃ inj, h e = some inj ∧ now - inj.startTime > inj.duration) ∧
    (∀ inj, h e = some inj → ¬ (now - inj.startTime > inj.duration) →
      Event.disp e ∉ (scanGo h now m).events ∧ Event.inv e ∉ (scanGo h now m).events) := by
  constructor
  · intro hmem
    obtain ⟨inj, h1, h2, _⟩ := scanGo_disp_mem h now e m hmem
    exact ⟨inj, h1, h2⟩
  · intro inj h1 h2
    constructor
    · intro hmem
      obtain ⟨inj2, g1, g2, _⟩ := scanGo_disp_mem h now e m hmem
      rw [h1] at g1
      injection g1 with g1
      rw [g1] at h2
      exact h2 g2
    · intro hmem
      obtain ⟨inj2, g1, _, g2⟩ := scanGo_inv_mem h now e m hmem
      rw [h1] at g1
      injection g1 with g1
      rw [g1] at h2
      exact h2 g2

def c5Heap : Heap := fun x => if x = 0 then
    some { callback := some 7, duration := 10, startTime := 0, valid := true, isMain := true }
    else none

theorem expiry_strict_threshold_witness :
    Event.disp 0 ∉ (scanGo c5Heap 10 [0]).events ∧
    Event.inv 0 ∉ (scanGo c5Heap 10 [0]).events :=
  (expiry_strict_threshold c5Heap 10 [0] 0).2 _ rfl (by decide)

/-- C9: if `Py_AddPendingCall` rejects the request (`res == -1`), `FastCall`
drops the dispatch for that cycle — the pending queue is unchanged and no
retry is recorded — whereas a successful registration of a valid entry
appends exactly one request. -/
theorem fastcall_failure_drops (h : Heap) (e : Nat) (q : List Nat) :
    fastCall h e false q = q ∧
    (∀ inj, h e = some inj → inj.valid = true → fastCall h e true q = q ++ [e]) := by
  constructor
  · unfold fastCall
    split
    · rfl
    · split
      · rfl
      · rfl
  · intro inj h1 h2
    unfold fastCall
    rw [h1]
    simp [h2]

theorem fastcall_failure_drops_witness :
    fastCall c5Heap 0 false [5] = [5] ∧ fastCall c5Heap 0 true [5] = [5, 0] := by
  have h := fastcall_failure_drops c5Heap 0 [5]
  exact ⟨h.1, h.2 _ rfl rfl⟩

/-- C10 (code bug): invalidation is permanent for an entry object: once its
valid flag is false (as `Release` leaves it), every operation keeps it
allocated and invalid, no trace of actions ever delivers its callback, both
dispatch paths (`FastCall`, `OnFastTrace`, `OnTrace`) refuse it, and
`Start` on the stopped handle re-registers it but its callback still can
never be invoked.  On a live entry `Reset` does restart the timer by
replacing the entry with a fresh valid one — but on a released entry
(callback cleared by `Release`) `Reset` crashes in `SetCallback`
(`Py_INCREF(nullptr)`) instead of restarting: `resetOp` is `none`. -/
theorem invalidation_permanent (s : SysState) (e : Nat) (i : Injector)
    (he : s.heap e = some i) (hv : i.valid = false) :
    (∀ a, ∃ i2, (step s a).1.heap e = some i2 ∧ i2.valid = false) ∧
    (∀ tr, (runFrom s tr).2.count (Event.inv e) = 0) ∧
    (∀ addOk q, fastCall s.heap e addOk q = q) ∧
    (∀ cbOk, onFastTrace s.heap e cbOk = ([], 0)) ∧
    (∀ saved cbOk, (onTraceOp s.heap (TraceHandler.hookH e saved) cbOk).events =
      [CtxEvent.setTrace saved]) ∧
    (∀ now, (e ∈ (startOp s e now).callMap ∨ e ∈ (startOp s e now).newVect) ∧
      ∀ tr, (runFrom (startOp s e now) tr).2.count (Event.inv e) = 0) ∧
    (i.callback = none → ∀ n now, resetOp s e n now = none) ∧
    (∀ s2 : SysState, ∀ o n : Nat, ∀ t : Int, ∀ oi : Injector, ∀ cb : Nat,
      s2.heap o = some oi → oi.valid = true → oi.callback = some cb →
      s2.heap n = none → validB (resetStep s2 o n t).heap n = true) := by
  refine ⟨fun a => step_heap_invalid s a e i he hv,
    fun tr => invalid_no_inv e tr s i he hv, ?_, ?_, ?_, ?_, ?_, ?_⟩
  · intro addOk q
    unfold fastCall
    simp [he, hv]
  · intro cbOk
    unfold onFastTrace
    simp [he, hv]
  · intro saved cbOk
    unfold onTraceOp
    simp [he, hv]
  · intro now
    constructor
    · exact startOp_registers s e i he now
    · intro tr
      refine invalid_no_inv e tr (startOp s e now) { i with startTime := now } ?_ hv
      rw [startOp_heap s e now i he]
      exact hmod_self s.heap e _ i he
  · intro hcb n now
    unfold resetOp
    simp only [he, hcb]
  · intro s2 o n t oi cb ho hvo hcb hn
    unfold resetStep resetOp
    simp only [ho, hcb]
    have hne : n ≠ o := by
      intro hh
      rw [hh, ho] at hn
      cases hn
    have h1n : (hmod s2.heap o releaseInj) n = none := by
      rw [hmod_other s2.heap o releaseInj n hne, hn]
    simp only [h1n]
    simp only [Option.getD, addTimeoutCallback_heap]
    unfold validB
    rw [hupd_self]

def c10State : SysState :=
  { heap := fun x => if x = 0 then
      some { callback := none, duration := 50, startTime := 0, valid := false, isMain := true }
      else none,
    callMap := [], newVect := [], delVect := [], running := false }

theorem invalidation_permanent_witness :
    fastCall c10State.heap 0 true [] = [] ∧
    (0 ∈ (startOp c10State 0 5).callMap ∨ 0 ∈ (startOp c10State 0 5).newVect) ∧
    resetOp c10State 0 1 5 = none ∧
    validB (resetStep c2State 0 1 5).heap 1 = true := by
  have h := invalidation_permanent c10State 0
    { callback := none, duration := 50, startTime := 0, valid := false, isMain := true }
    rfl rfl
  refine ⟨h.2.2.1 true [], (h.2.2.2.2.2.1 5).1, h.2.2.2.2.2.2.1 rfl 1 5, ?_⟩
  exact h.2.2.2.2.2.2.2 c2State 0 1 5 c2Inj 3 rfl rfl rfl rfl

def c3State : SysState :=
  { heap := fun x => if x = 0 then
      some { callback := some 7, duration := 1000, startTime := 0, valid := true, isMain := true }
      else none,
    callMap := [0], newVect := [], delVect := [], running := true }

/-- C3, counterexample: the claim says the sleep duration equals the
minimum remaining time minus the elapsed scan time (floored at the
resolution quantum and at zero).  With one live entry whose remaining time
is 1000 ms and no scan cost, that formula gives 1000 ms, but
`CheckThread` sleeps a fixed `AccurateSleep(1)` — 1 ms — whenever
`minSpan - elapsed > INTERVAL_RESOLUTION`. -/
theorem sleep_not_min_remaining_cex :
    cycleSleep c3State 0 0 = 1 ∧
    specSleepClaim (scanGo c3State.heap 0 c3State.callMap).minSpan 0 = 1000 ∧
    cycleSleep c3State 0 0 ≠
      specSleepClaim (scanGo c3State.heap 0 c3State.callMap).minSpan 0 := by
  refine ⟨?_, ?_, ?_⟩ <;> decide

/-- C3 (amended): after each scan the watchdog sleeps a fixed 1 ms when the
minimum remaining time across live entries minus the elapsed scan time
exceeds the 5 ms resolution quantum, and does not sleep at all otherwise;
the sleep duration is never negative. -/
theorem sleep_fixed_quantum (s : SysState) (now elapsed : Int) :
    (0 ≤ cycleSleep s now elapsed ∧ cycleSleep s now elapsed ≤ 1) ∧
    (cycleSleep s now elapsed = 1 ↔
      (scanGo s.heap now s.callMap).minSpan - elapsed > intervalResolution) := by
  unfold cycleSleep
  dsimp only
  refine ⟨⟨?_, ?_⟩, ?_⟩ <;> split <;> simp_all

def c8State : SysState :=
  { heap := fun x => if x = 0 then
      some { callback := some 7, duration := 10, startTime := 0, valid := true, isMain := true }
      else none,
    callMap := [0], newVect := [], delVect := [], running := true }

/-- C8: whenever the active map is empty after the merge of a watchdog
cycle, the loop clears `m_Running` within that same cycle (so the
`do ... while (m_Running)` loop exits and the thread parks on the condition
variable), and the running flag can only be turned back on by a `start` or
`reset` action. -/
theorem idle_parks_and_resumes_on_add (s s2 : SysState) (now : Int) (a : Act) :
    ((cycleOp s now).1.callMap = [] → (cycleOp s now).1.running = false) ∧
    ((step s2 a).1.running = true →
      s2.running = true ∨ (∃ id t, a = Act.start id t) ∨
        (∃ o n t, a = Act.reset o n t)) := by
  constructor
  · intro hempty
    have h1 : (mergeOp { s with
        callMap := (scanGo s.heap now s.callMap).map }).callMap = [] := hempty
    show (if (mergeOp { s with
        callMap := (scanGo s.heap now s.callMap).map }).callMap.isEmpty then false
      else (mergeOp { s with
        callMap := (scanGo s.heap now s.callMap).map }).running) = false
    rw [h1]
    rfl
  · intro h
    cases a with
    | create id cb dur m =>
      left
      have hr : (createOp s2 id cb dur m).running = s2.running := by
        unfold createOp
        split <;> rfl
      rw [← hr]
      exact h
    | start id t => exact Or.inr (Or.inl ⟨id, t, rfl⟩)
    | stop id =>
      left
      rw [← stopOp_running s2 id]
      exact h
    | reset o n t => exact Or.inr (Or.inr ⟨o, n, t, rfl⟩)
    | cycle t =>
      left
      simp only [step, cycleOp] at h
      split at h
      · cases h
      · exact h

theorem idle_parks_witness :
    (cycleOp c8State 100).1.callMap = [] ∧ (cycleOp c8State 100).1.running = false := by
  refine ⟨by decide, ?_⟩
  exact (idle_parks_and_resumes_on_add c8State c8State 100 (Act.stop 0)).1 (by decide)

def c1State : SysState :=
  { heap := fun x => if x = 0 then
      some { callback := some 7, duration := 10, startTime := 0, valid := true, isMain := true }
      else none,
    callMap := [0], newVect := [], delVect := [], running := true }

/-- C1, counterexample: the claim says an expired entry is removed from the
active map before `DispatchRouter.Dispatch` is invoked on it.  In
`CheckThread` the order is the opposite: `CAttacher::Attach(injector)` runs
first and `iter = m_CallMap.erase(iter)` second, so in the scan's event
sequence for an expired valid entry the dispatch precedes the removal. -/
theorem scan_dispatch_precedes_removal_cex :
    (cycleOp c1State 100).2 = [Event.disp 0, Event.inv 0, Event.rem 0] ∧
    ¬ removalPrecedesDispatch ((cycleOp c1State 100).2) 0 := by
  refine ⟨?_, ?_⟩ <;> decide

/-- C1 (amended): at-most-once delivery holds — over any action trace, the
number of callback deliveries initiated for an entry never exceeds the
number of `Start`/`Reset` registrations of that entry — and although an
expired entry is dispatched first and only then erased, the erase happens
in the same scan step, so the entry is no longer in the map the scan
produces and a later scan cannot re-dispatch it. -/
theorem at_most_once_dispatch (e : Nat) (tr : List Act) (h : Heap) (now : Int)
    (m : List Nat) :
    (runFrom initState tr).2.count (Event.inv e) ≤ startCount e tr ∧
    (Event.disp e ∈ (scanGo h now m).events → e ∉ (scanGo h now m).map) := by
  constructor
  · have h1 := runFrom_count_le e tr initState
    have h0 : potential e initState = 0 := rfl
    omega
  · intro hmem
    obtain ⟨inj, h1, h2, _⟩ := scanGo_disp_mem h now e m hmem
    exact scanGo_expired_not_map h now e inj h1 h2 m

theorem at_most_once_dispatch_witness :
    Event.disp 0 ∈ (scanGo c1State.heap 100 [0]).events ∧
    0 ∉ (scanGo c1State.heap 100 [0]).map := by
  refine ⟨by decide, ?_⟩
  exact (at_most_once_dispatch 0 [] c1State.heap 100 [0]).2 (by decide)

/-- The fresh injector `InjectorReset` builds from the old one's callback
and duration. -/
def freshFrom (oi : Injector) (t : Int) : Injector :=
  { callback := oi.callback, duration := oi.duration, startTime := t,
    valid := true, isMain := oi.isMain }

lemma resetStep_heap_eq (s : SysState) (o n : Nat) (now : Int) (oi : Injector) (cb : Nat)
    (ho : s.heap o = some oi) (hcb : oi.callback = some cb)
    (h1n : (hmod s.heap o releaseInj) n = none) :
    (resetStep s o n now).heap = hupd (hmod s.heap o releaseInj) n (freshFrom oi now) := by
  unfold resetStep resetOp
  simp only [ho, hcb, h1n]
  simp only [Option.getD]
  rw [addTimeoutCallback_heap]
  unfold freshFrom
  rw [hcb]

lemma resetStep_registers (s : SysState) (o n : Nat) (now : Int) (oi : Injector) (cb : Nat)
    (ho : s.heap o = some oi) (hcb : oi.callback = some cb)
    (h1n : (hmod s.heap o releaseInj) n = none) :
    n ∈ (resetStep s o n now).callMap ∨ n ∈ (resetStep s o n now).newVect := by
  unfold resetStep resetOp
  simp only [ho, hcb, h1n]
  simp only [Option.getD]
  unfold addTimeoutCallback
  dsimp only
  split
  · right
    simp
  · left
    rw [mem_mapInsert]
    exact Or.inr rfl

lemma stopFreshStart_eq (s : SysState) (o n : Nat) (now : Int) (oi : Injector)
    (ho : s.heap o = some oi) (h1n : (hmod s.heap o releaseInj) n = none) :
    stopFreshStart s o n now =
      startOp { stopOp s o with
        heap := hupd (stopOp s o).heap n (freshFrom oi 0) } n now := by
  unfold stopFreshStart
  simp only [ho]
  have h2n : (stopOp s o).heap n = none := by
    rw [stopOp_heap]
    exact h1n
  simp only [h2n]
  rfl

def c4State : SysState :=
  { heap := fun x => if x = 0 then
      some { callback := some 7, duration := 100, startTime := 0, valid := true, isMain := true }
      else none,
    callMap := [0], newVect := [], delVect := [], running := false }

/-- C4, counterexample: the claim says the registry after `Reset()` matches
the registry after `Stop(); Start()` on a fresh entry.  It does not:
`InjectorReset` only calls `Release()` on the old injector and never
removes it from `m_CallMap`, while `Stop` erases it (synchronously here,
since the loop is idle).  From a state with old entry `0` tracked, `Reset`
leaves the map `[0, 1]` but `Stop` + fresh `Start` leaves `[1]`. -/
theorem reset_vs_stop_start_registry_cex :
    (resetStep c4State 0 1 50).callMap = [0, 1] ∧
    (stopFreshStart c4State 0 1 50).callMap = [1] ∧
    (resetStep c4State 0 1 50).callMap ≠ (stopFreshStart c4State 0 1 50).callMap := by
  refine ⟨?_, ?_, ?_⟩ <;> decide

/-- C4 (amended): `Reset()` matches `Stop()` followed by a fresh `Start()`
with the same callback and duration in heap contents and dispatch
behaviour: the heaps agree pointwise, the new entry is valid with the old
callback and duration and start time `now` and is registered, and the old
entry is invalid in both and never fires afterwards.  The registries
differ: `Reset` leaves the invalidated old entry in the active map until a
scan observes its expiry, while `Stop` removes it from the map (at once or
at the next merge). -/
theorem reset_refines_stop_start_dispatch (s : SysState) (o n : Nat) (now : Int)
    (oi : Injector) (cb : Nat) (ho : s.heap o = some oi) (hcb : oi.callback = some cb)
    (hn : s.heap n = none) (hne : o ≠ n) :
    (∀ x, (resetStep s o n now).heap x = (stopFreshStart s o n now).heap x) ∧
    (resetStep s o n now).heap n = some (freshFrom oi now) ∧
    validB (resetStep s o n now).heap o = false ∧
    validB (stopFreshStart s o n now).heap o = false ∧
    (∀ tr, (runFrom (resetStep s o n now) tr).2.count (Event.inv o) = 0) ∧
    (∀ tr, (runFrom (stopFreshStart s o n now) tr).2.count (Event.inv o) = 0) ∧
    (n ∈ (resetStep s o n now).callMap ∨ n ∈ (resetStep s o n now).newVect) ∧
    (n ∈ (stopFreshStart s o n now).callMap ∨ n ∈ (stopFreshStart s o n now).newVect) := by
  have hne' : n ≠ o := Ne.symm hne
  have h1n : (hmod s.heap o releaseInj) n = none := by
    rw [hmod_other s.heap o releaseInj n hne', hn]
  have hRh := resetStep_heap_eq s o n now oi cb ho hcb h1n
  have hSeq := stopFreshStart_eq s o n now oi ho h1n
  have hS2n : ({ stopOp s o with
      heap := hupd (stopOp s o).heap n (freshFrom oi 0) } : SysState).heap n =
      some (freshFrom oi 0) := hupd_self _ n _
  have hSh : (stopFreshStart s o n now).heap =
      hmod (hupd (stopOp s o).heap n (freshFrom oi 0)) n
        (fun j => { j with startTime := now }) := by
    rw [hSeq]
    exact startOp_heap _ n now (freshFrom oi 0) hS2n
  have hRn : (resetStep s o n now).heap n = some (freshFrom oi now) := by
    rw [hRh]
    exact hupd_self _ n _
  have hSn : (stopFreshStart s o n now).heap n = some (freshFrom oi now) := by
    rw [hSh]
    rw [hmod_self _ n _ (freshFrom oi 0) (hupd_self _ n _)]
    rfl
  have hRo : (resetStep s o n now).heap o = some (releaseInj oi) := by
    rw [hRh, hupd_other _ _ _ _ hne]
    exact hmod_self s.heap o releaseInj oi ho
  have hSo : (stopFreshStart s o n now).heap o = some (releaseInj oi) := by
    rw [hSh, hmod_other _ _ _ _ hne, hupd_other _ _ _ _ hne, stopOp_heap]
    exact hmod_self s.heap o releaseInj oi ho
  refine ⟨?_, hRn, ?_, ?_, ?_, ?_, ?_, ?_⟩
  · intro x
    by_cases hxn : x = n
    · rw [hxn, hRn, hSn]
    · rw [hRh, hupd_other _ _ _ _ hxn, hSh, hmod_other _ _ _ _ hxn,
        hupd_other _ _ _ _ hxn, stopOp_heap]
  · unfold validB
    rw [hRo]
    rfl
  · unfold validB
    rw [hSo]
    rfl
  · intro tr
    exact invalid_no_inv o tr _ (releaseInj oi) hRo (by simp [releaseInj])
  · intro tr
    exact invalid_no_inv o tr _ (releaseInj oi) hSo (by simp [releaseInj])
  · exact resetStep_registers s o n now oi cb ho hcb h1n
  · rw [hSeq]
    exact startOp_registers _ n (freshFrom oi 0) hS2n now

def c4Inj : Injector :=
  { callback := some 7, duration := 100, startTime := 0, valid := true, isMain := true }

theorem reset_refines_stop_start_dispatch_witness :
    (resetStep c4State 0 1 50).heap 0 = (stopFreshStart c4State 0 1 50).heap 0 ∧
    (resetStep c4State 0 1 50).heap 1 = some (freshFrom c4Inj 50) ∧
    validB (resetStep c4State 0 1 50).heap 0 = false := by
  have h := reset_refines_stop_start_dispatch c4State 0 1 50 c4Inj 7 rfl rfl rfl (by decide)
  exact ⟨h.1 0, h.2.1, h.2.2.1⟩

/-- C6 (code bug): when `OnTrace` fires on the target context it does
restore the previously captured trace pair first (exactly one-shot: the
handler left installed is the one `Call` captured), invokes the callback
only if the entry is still valid at fire time, and returns `-1` — the
context's abort/error path — exactly when the callback failed.  But the
argument it passes is not the recorded start time: the `"(d)"` format of
`PyObject_CallFunction` (line 421) consumes a C `double` while
`pyStartTime` is a `PyObject*`, so the callback receives a garbage double
(`CbArg.garbageDouble`), unlike the fast path `OnFastTrace`, whose `"O"`
call (line 394) delivers the recorded start time. -/
theorem checkpoint_hook_oneshot (hInstall hFire : Heap) (e : Nat) (cur : TraceHandler)
    (cbOk : Bool) (hv : validB hInstall e = true) :
    callOp hInstall e cur = TraceHandler.hookH e cur ∧
    (onTraceOp hFire (TraceHandler.hookH e cur) cbOk).handler = cur ∧
    (onTraceOp hFire (TraceHandler.hookH e cur) cbOk).events.head? =
      some (CtxEvent.setTrace cur) ∧
    (∀ inj, hFire e = some inj → inj.valid = true →
      (onTraceOp hFire (TraceHandler.hookH e cur) cbOk).events =
        [CtxEvent.setTrace cur, CtxEvent.invoke inj.callback CbArg.garbageDouble] ∧
      CtxEvent.invoke inj.callback CbArg.garbageDouble ≠
        CtxEvent.invoke inj.callback (CbArg.startTimeObj inj.startTime) ∧
      (onTraceOp hFire (TraceHandler.hookH e cur) cbOk).ret =
        (if cbOk then 0 else -1)) ∧
    (validB hFire e = false →
      (onTraceOp hFire (TraceHandler.hookH e cur) cbOk).events =
        [CtxEvent.setTrace cur] ∧
      (onTraceOp hFire (TraceHandler.hookH e cur) cbOk).ret = 0) ∧
    (∀ inj cbOk2, hFire e = some inj → inj.valid = true →
      onFastTrace hFire e cbOk2 =
        ([CtxEvent.invoke inj.callback (CbArg.startTimeObj inj.startTime)],
         if cbOk2 then 0 else -1)) := by
  refine ⟨?_, ?_, ?_, ?_, ?_, ?_⟩
  · unfold callOp
    unfold validB at hv
    cases hI : hInstall e with
    | none => simp [hI] at hv
    | some i =>
      simp [hI] at hv
      simp [hI, hv]
  · unfold onTraceOp
    cases hF : hFire e with
    | none => simp [hF]
    | some i =>
      by_cases hvi : i.valid <;> simp [hF, hvi]
  · unfold onTraceOp
    cases hF : hFire e with
    | none => simp [hF]
    | some i =>
      by_cases hvi : i.valid <;> simp [hF, hvi]
  · intro inj hF hvi
    unfold onTraceOp
    simp [hF, hvi]
  · intro hvF
    unfold validB at hvF
    unfold onTraceOp
    cases hF : hFire e with
    | none => simp [hF]
    | some i =>
      simp [hF] at hvF
      simp [hF, hvF]
  · intro inj cbOk2 hF hvi
    unfold onFastTrace
    simp [hF, hvi]

def c6Heap : Heap := fun x => if x = 0 then
    some { callback := some 9, duration := 100, startTime := 3, valid := true, isMain := false }
    else none

theorem checkpoint_hook_oneshot_witness :
    callOp c6Heap 0 TraceHandler.noneH = TraceHandler.hookH 0 TraceHandler.noneH ∧
    (onTraceOp c6Heap (TraceHandler.hookH 0 TraceHandler.noneH) false).events =
      [CtxEvent.setTrace TraceHandler.noneH,
       CtxEvent.invoke (some 9) CbArg.garbageDouble] ∧
    (onTraceOp c6Heap (TraceHandler.hookH 0 TraceHandler.noneH) false).ret = -1 ∧
    onFastTrace c6Heap 0 false =
      ([CtxEvent.invoke (some 9) (CbArg.startTimeObj 3)], -1) := by
  have h := checkpoint_hook_oneshot c6Heap c6Heap 0 TraceHandler.noneH false (by decide)
  have h2 := h.2.2.2.1
    { callback := some 9, duration := 100, startTime := 3, valid := true, isMain := false }
    rfl rfl
  have h3 := h.2.2.2.2.2
    { callback := some 9, duration := 100, startTime := 3, valid := true, isMain := false }
    false rfl rfl
  exact ⟨h.1, h2.1, h2.2.2, h3⟩
